import Mathlib

/-!
Shallow embedding of `src/main.rs` of the pomodoro/todo ratatui application.

Modelling conventions:
* `std::time::Instant` is modelled as a wall-clock timestamp in whole seconds
  (`Nat`); the current instant is passed explicitly as a `now : Nat` argument
  to every operation that calls `Instant::now()`.  `start.elapsed()` becomes
  `now - start` (truncated `Nat` subtraction; real time satisfies
  `start ≤ now`, and `Duration` comparisons at second granularity coincide
  with the `Nat` comparisons used here).
* `f64` (only used for the progress gauge ratio) is modelled as `ℚ`.
* Rust `String` is Lean `String`; the string algorithms the program uses
  (`split(" | ")`, `lines()`, `trim()`, `u32` parsing and formatting) are
  re-implemented below on `List Char`, structurally recursive so that they
  evaluate by kernel reduction.
* The file system is modelled as the optional content of `todo_list.txt`:
  `load_todos` takes `Option String` (`none` = `fs::read_to_string` failed),
  `save_todos` returns the `String` that is written.
* `Vec` indexing `self.todos[self.selected_index]` panics in Rust when the
  index is out of range; the embedding returns the state unchanged in that
  case (marked `-- Rust panics` below).  All theorems about those paths
  carry an in-range hypothesis, so the divergence is never exercised.
-/

namespace PomodoroApp

inductive InputMode where
  | Task
  | Language
  | NoTyping
deriving DecidableEq

inductive PomodoroState where
  | Idle
  | Work
  | Break
deriving DecidableEq

/-- The subset of `ratatui::style::Color` values used by the model
(`pomodoro_overview` return values). -/
inductive Color where
  | DarkGray
  | LightGreen
  | LightBlue
  | Gray
deriving DecidableEq

/-- Work-phase length: `WORK_DURATION = Duration::from_secs(25 * 60)`, in seconds. -/
def WORK_DURATION : Nat := 25 * 60

/-- Break-phase length: `BREAK_DURATION = Duration::from_secs(5 * 60)`, in seconds. -/
def BREAK_DURATION : Nat := 5 * 60

structure Task where
  name : String
  language : String
  pomodoro_state : PomodoroState
  pomodoro_start : Option Nat
  completed_pomodoros : Nat
deriving DecidableEq

structure App where
  todos : List Task
  input : String
  language_input : String
  selected_index : Nat
  input_mode : InputMode
  cursor_position : Nat
  status_message : Option (String × Nat)
deriving DecidableEq

/-! ### String helpers (List Char re-implementations of the Rust std calls) -/

/-- ASCII whitespace test used to model `str::trim` (the program only ever
trims user-typed printable text, where Rust's Unicode white-space set and
this ASCII set agree). -/
def isWS (c : Char) : Bool :=
  c = ' ' || c = '\t' || c = '\n' || c = '\r'

/-- Model of `str::trim`: remove leading and trailing whitespace. -/
def trimChars (l : List Char) : List Char :=
  ((l.dropWhile isWS).reverse.dropWhile isWS).reverse

/-- Model of `str::trim` on `String`. -/
def strTrim (s : String) : String :=
  ⟨trimChars s.data⟩

/-- Model of `s.split(" | ")` specialised to the program's fixed three-character
delimiter: left-to-right, non-overlapping; always returns at least one
(possibly empty) chunk, like Rust's `split`. -/
def splitPipe : List Char → List (List Char)
  | [] => [[]]
  | [c] => [[c]]
  | [c, d] => [[c, d]]
  | c :: d :: e :: rest =>
    if c = ' ' ∧ d = '|' ∧ e = ' ' then
      [] :: splitPipe rest
    else
      match splitPipe (d :: e :: rest) with
      | [] => [[c]]
      | chunk :: chunks => (c :: chunk) :: chunks

/-- Split at `'\n'` characters (first half of `str::lines`). -/
def splitNl : List Char → List (List Char)
  | [] => [[]]
  | c :: rest =>
    if c = '\n' then
      [] :: splitNl rest
    else
      match splitNl rest with
      | [] => [[c]]
      | chunk :: chunks => (c :: chunk) :: chunks

/-- Remove one trailing `'\r'` (the `\r\n` handling of `str::lines`). -/
def stripCR (l : List Char) : List Char :=
  if l.getLast? = some '\r' then l.dropLast else l

/-- Model of `str::lines`: split at `'\n'`, drop a final empty chunk (content ending
in a newline), and strip one `'\r'` from every chunk that was terminated by
a `'\n'` (every chunk except an unterminated last one). -/
def rustLines (l : List Char) : List (List Char) :=
  match (splitNl l).getLast? with
  | none => []
  | some last =>
    if last = [] then (splitNl l).dropLast.map stripCR
    else (splitNl l).dropLast.map stripCR ++ [last]

/-- Decimal digit character for `n < 10` (format of `u32` via `Display`). -/
def digitChar : Nat → Char
  | 0 => '0' | 1 => '1' | 2 => '2' | 3 => '3' | 4 => '4'
  | 5 => '5' | 6 => '6' | 7 => '7' | 8 => '8' | 9 => '9'
  | _ => '*'

/-- Numeric value of a digit character. -/
def charVal (c : Char) : Nat := c.toNat - 48

/-- Fuelled decimal printer (structural recursion on the fuel so that it
kernel-reduces; `natDigits` instantiates the fuel large enough). -/
def digitsGo : Nat → Nat → List Char
  | 0, _ => []
  | fuel + 1, n =>
    if n < 10 then [digitChar n]
    else digitsGo fuel (n / 10) ++ [digitChar (n % 10)]

/-- Decimal representation of `n`, most significant digit first
(`u32` formatting via `Display` in `writeln!`). -/
def natDigits (n : Nat) : List Char := digitsGo (n + 1) n

/-- Value of a digit string, `digitsVal "123" = 123`. -/
def digitsVal (l : List Char) : Nat :=
  l.foldl (fun acc c => 10 * acc + charVal c) 0

/-- Digit-run body of `str::parse::<u32>()`: one or more decimal digits
with value below `2 ^ 32`. -/
def parseU32Core (l : List Char) : Option Nat :=
  if l ≠ [] ∧ l.all Char.isDigit then
    if digitsVal l < 2 ^ 32 then some (digitsVal l) else none
  else none

/-- Model of `str::parse::<u32>()`: an optional leading `'+'`, then one or more
decimal digits, value below `2 ^ 32`; anything else is a parse error. -/
def parseU32 (l : List Char) : Option Nat :=
  if l.head? = some '+' then parseU32Core l.tail else parseU32Core l

/-! ### Persistence adapter (`load_todos` / `save_todos`) -/

/-- One line of `todo_list.txt` mapped to a `Task` (the closure inside
`load_todos` in the source): split at `" | "`, field 0 is the name, field 1
the language (default `"Unknown"`), field 2 the completed count (default
`0` when absent or unparseable). -/
def parse_task_line (l : List Char) : Task :=
  { name := ⟨(splitPipe l).headD []⟩
    language := ⟨((splitPipe l)[1]?).getD "Unknown".data⟩
    pomodoro_state := .Idle
    pomodoro_start := none
    completed_pomodoros := (((splitPipe l)[2]?).bind parseU32).getD 0 }

/-- Model of `load_todos()`: `none` models a failed `fs::read_to_string` (absent
file) and yields the empty store; otherwise every line of the content
becomes one task. -/
def load_todos (content : Option String) : List Task :=
  match content with
  | none => []
  | some s => (rustLines s.data).map parse_task_line

/-- The line `writeln!` writes for one task, without the terminating
newline: name, language and completed count joined by the delimiter. -/
def task_line (t : Task) : List Char :=
  t.name.data ++ [' ', '|', ' '] ++ t.language.data ++ [' ', '|', ' ']
    ++ natDigits t.completed_pomodoros

/-- Model of `save_todos`: the full content written to `todo_list.txt`
(truncate + overwrite), one newline-terminated line per task. -/
def save_todos (todos : List Task) : String :=
  ⟨todos.foldr (fun t acc => task_line t ++ '\n' :: acc) []⟩

/-! ### Pomodoro engine (`App` methods) -/

/-- Model of `App::start_pomodoro`: no-op on an empty store; otherwise the selected
task is unconditionally moved to `Work` with a fresh timer, and a status
message is emitted. -/
def start_pomodoro (now : Nat) (a : App) : App :=
  if a.todos.isEmpty then a
  else
    match a.todos[a.selected_index]? with
    | none => a -- Rust panics (index out of range); unreachable, see header
    | some task =>
      { a with
        todos := a.todos.set a.selected_index
          { task with pomodoro_state := .Work, pomodoro_start := some now }
        status_message :=
          some ("Started focus on '" ++ task.name ++ "'. Stay sharp!", now) }

/-- Model of `App::update_pomodoro` (the per-loop tick): no-op on an empty store or
when the selected task has no running timer; `Work → Break` when
`elapsed ≥ WORK_DURATION` (timer restarted, completed count incremented);
`Break → Idle` when `elapsed ≥ BREAK_DURATION` (timer cleared); otherwise
the guard fails and nothing changes (`_ => {}`). -/
def update_pomodoro (now : Nat) (a : App) : App :=
  if a.todos.isEmpty then a
  else
    match a.todos[a.selected_index]? with
    | none => a -- Rust panics (index out of range); unreachable, see header
    | some task =>
      match task.pomodoro_start with
      | none => a
      | some start =>
        let elapsed := now - start
        match task.pomodoro_state with
        | .Work =>
          if WORK_DURATION ≤ elapsed then
            { a with
              todos := a.todos.set a.selected_index
                { task with
                  pomodoro_state := .Break
                  pomodoro_start := some now
                  completed_pomodoros := task.completed_pomodoros + 1 }
              status_message :=
                some ("Work session done! Take a break, " ++ task.name ++ ".", now) }
          else a
        | .Break =>
          if BREAK_DURATION ≤ elapsed then
            { a with
              todos := a.todos.set a.selected_index
                { task with pomodoro_state := .Idle, pomodoro_start := none }
              status_message :=
                some ("Break finished. Ready for another round?", now) }
          else a
        | .Idle => a

/-- The two-digit `{:02}` format used for minutes and seconds. -/
def pad2 (n : Nat) : String :=
  if n < 10 then ⟨'0' :: natDigits n⟩ else ⟨natDigits n⟩

/-- The gauge label: phase, then minutes and seconds remaining, each
zero-padded to two digits. -/
def phase_line (phase : String) (remaining : Nat) : String :=
  phase ++ " — " ++ pad2 (remaining / 60) ++ ":" ++ pad2 (remaining % 60) ++ " left"

/-- Model of `App::pomodoro_overview` (pure projection, `&self` in the source):
gauge label, progress ratio and colour for the selected task.  `remaining`
is `duration.checked_sub(elapsed).unwrap_or(0)` (saturating, = `Nat`
subtraction) and the ratio is `min(elapsed / duration, 1.0)` in `ℚ`. -/
def pomodoro_overview (now : Nat) (a : App) : String × ℚ × Color :=
  if a.todos.isEmpty then ("No tasks available", 0, .DarkGray)
  else
    match a.todos[a.selected_index]? with
    | none => ("No tasks available", 0, .DarkGray) -- Rust panics; unreachable
    | some task =>
      match task.pomodoro_start with
      | some start =>
        let elapsed := now - start
        match task.pomodoro_state with
        | .Idle => ("Pomodoro paused. Press 'p' to resume.", 0, .Gray)
        | .Work =>
          (phase_line "Focus" (WORK_DURATION - elapsed),
            min ((elapsed : ℚ) / (WORK_DURATION : ℚ)) 1, .LightGreen)
        | .Break =>
          (phase_line "Break" (BREAK_DURATION - elapsed),
            min ((elapsed : ℚ) / (BREAK_DURATION : ℚ)) 1, .LightBlue)
      | none =>
        ("Press 'p' to start the pomodoro for this task.", 0, .Gray)

/-- Model of `App::handle_input`: append a typed character to the buffer selected by
the input mode (no-op outside the two typing modes). -/
def handle_input (c : Char) (a : App) : App :=
  match a.input_mode with
  | .Task =>
    { a with input := a.input.push c, cursor_position := a.cursor_position + 1 }
  | .Language =>
    { a with language_input := a.language_input.push c
             cursor_position := a.cursor_position + 1 }
  | .NoTyping => a

/-- Model of `App::handle_backspace`: pop the last character of the active buffer
when it is non-empty (cursor decremented with saturation). -/
def handle_backspace (a : App) : App :=
  match a.input_mode with
  | .Task =>
    if a.input.isEmpty then a
    else { a with input := ⟨a.input.data.dropLast⟩
                  cursor_position := a.cursor_position - 1 }
  | .Language =>
    if a.language_input.isEmpty then a
    else { a with language_input := ⟨a.language_input.data.dropLast⟩
                  cursor_position := a.cursor_position - 1 }
  | .NoTyping => a

/-! ### Session controller: the key-event dispatch of `main`'s loop -/

/-- The `crossterm` key codes the event loop matches on. -/
inductive KeyEvent where
  | char (c : Char)
  | esc
  | enter
  | backspace
  | delete
  | up
  | down
deriving DecidableEq

/-- Result of handling one key event: the new application state, the store
content written through `save_todos` (if any), and whether the loop breaks
(`'q'`). -/
structure StepOut where
  app : App
  saved : Option (List Task)
  quit : Bool
deriving DecidableEq

/-- The `match key.code` dispatch in `main`'s event loop.  Arm order
matters only among the `Char` patterns: `'q'`, `'p'` and `'i'` are matched
before the catch-all `Char(c) => handle_input`, which is why those three
characters act as global commands even while typing. -/
def handle_key (now : Nat) (a : App) (k : KeyEvent) : StepOut :=
  match k with
  | .char c =>
    if c = 'q' then ⟨a, none, true⟩
    else if c = 'p' then ⟨start_pomodoro now a, none, false⟩
    else if c = 'i' then
      ⟨{ a with input_mode := .Task, cursor_position := 0 }, none, false⟩
    else ⟨handle_input c a, none, false⟩
  | .esc =>
    ⟨{ a with input_mode := .NoTyping, input := "", language_input := ""
              status_message := some ("Creation cancelled.", now) }, none, false⟩
  | .backspace => ⟨handle_backspace a, none, false⟩
  | .enter =>
    match a.input_mode with
    | .Task =>
      if strTrim a.input ≠ "" then
        ⟨{ a with input_mode := .Language, cursor_position := 0 }, none, false⟩
      else ⟨a, none, false⟩
    | .Language =>
      if strTrim a.language_input ≠ "" then
        let todos' := a.todos ++
          [{ name := strTrim a.input
             language := strTrim a.language_input
             pomodoro_state := .Idle
             pomodoro_start := none
             completed_pomodoros := 0 }]
        ⟨{ a with todos := todos', input := "", language_input := ""
                  input_mode := .NoTyping, cursor_position := 0
                  status_message := some ("New task added. Ready to focus!", now) },
          some todos', false⟩
      else ⟨a, none, false⟩
    | .NoTyping => ⟨a, none, false⟩
  | .delete =>
    -- `KeyCode::Delete if !app.todos.is_empty()`; an in-range selection is
    -- an invariant of the loop, and Rust would panic otherwise.
    match a.todos[a.selected_index]? with
    | none => ⟨a, none, false⟩
    | some removed =>
      let todos' := a.todos.eraseIdx a.selected_index
      let sel' :=
        if todos'.length ≤ a.selected_index ∧ 0 < a.selected_index then
          a.selected_index - 1
        else a.selected_index
      ⟨{ a with todos := todos', selected_index := sel'
                status_message := some ("Removed '" ++ removed.name ++ "'.", now) },
        some todos', false⟩
  | .up =>
    if 0 < a.selected_index then
      ⟨{ a with selected_index := a.selected_index - 1 }, none, false⟩
    else ⟨a, none, false⟩
  | .down =>
    if a.selected_index < a.todos.length - 1 then
      ⟨{ a with selected_index := a.selected_index + 1 }, none, false⟩
    else ⟨a, none, false⟩

end PomodoroApp

namespace PomodoroApp

theorem splitNl_ne_nil (l : List Char) : splitNl l ≠ [] := by
  induction l with
  | nil => simp [splitNl]
  | cons c rest ih =>
    rw [splitNl.eq_2]
    split
    · simp
    · cases h : splitNl rest with
      | nil => exact absurd h ih
      | cons chunk chunks => simp

theorem splitNl_eq_single {l : List Char} (h : '\n' ∉ l) : splitNl l = [l] := by
  induction l with
  | nil => simp [splitNl]
  | cons c rest ih =>
    have hc : ¬ c = '\n' := fun hc => h (hc ▸ List.mem_cons_self c rest)
    have hrest : '\n' ∉ rest := fun hm => h (List.mem_cons_of_mem c hm)
    rw [splitNl.eq_2, if_neg hc, ih hrest]

theorem splitNl_sep_append (a b : List Char) (h : '\n' ∉ a) :
    splitNl (a ++ '\n' :: b) = a :: splitNl b := by
  induction a with
  | nil => simp [splitNl]
  | cons c a' ih =>
    have hc : ¬ c = '\n' := fun hc => h (hc ▸ List.mem_cons_self c a')
    have ha' : '\n' ∉ a' := fun hm => h (List.mem_cons_of_mem c hm)
    rw [List.cons_append, splitNl.eq_2, if_neg hc, ih ha']

theorem splitPipe_ne_nil (l : List Char) : splitPipe l ≠ [] := by
  induction l with
  | nil => simp [splitPipe]
  | cons c rest ih =>
    match rest with
    | [] => simp [splitPipe]
    | [d] => simp [splitPipe]
    | d :: e :: rest' =>
      rw [splitPipe.eq_4]
      split
      · simp
      · cases h : splitPipe (d :: e :: rest') with
        | nil => exact absurd h ih
        | cons chunk chunks => simp

theorem splitPipe_eq_single {l : List Char} (h : '|' ∉ l) : splitPipe l = [l] := by
  induction l with
  | nil => simp [splitPipe]
  | cons c rest ih =>
    have hrest : '|' ∉ rest := fun hm => h (List.mem_cons_of_mem c hm)
    match rest with
    | [] => simp [splitPipe]
    | [d] => simp [splitPipe]
    | d :: e :: rest' =>
      have hd : ¬ d = '|' := fun hd =>
        hrest (hd ▸ List.mem_cons_self d (e :: rest'))
      rw [splitPipe.eq_4, if_neg (by tauto), ih hrest]

theorem splitPipe_sep_append (a b : List Char) (h : '|' ∉ a) :
    splitPipe (a ++ ' ' :: '|' :: ' ' :: b) = a :: splitPipe b := by
  induction a with
  | nil => rw [List.nil_append, splitPipe.eq_4, if_pos (by simp)]
  | cons c a' ih =>
    have ha' : '|' ∉ a' := fun hm => h (List.mem_cons_of_mem c hm)
    match a' with
    | [] =>
      rw [List.nil_append] at ih
      rw [List.cons_append, List.nil_append, splitPipe.eq_4,
        if_neg (by simp), ih ha']
    | [f] =>
      have hf : ¬ f = '|' := fun hf =>
        ha' (hf ▸ List.mem_cons_self f [])
      simp only [List.cons_append, List.nil_append] at ih ⊢
      rw [splitPipe.eq_4, if_neg (by tauto), ih ha']
    | f :: g :: a'' =>
      have hf : ¬ f = '|' := fun hf =>
        ha' (hf ▸ List.mem_cons_self f (g :: a''))
      simp only [List.cons_append, List.nil_append] at ih ⊢
      rw [splitPipe.eq_4, if_neg (by tauto), ih ha']

end PomodoroApp

namespace PomodoroApp

theorem rustLines_nil : rustLines [] = [] := rfl

theorem rustLines_line_append (a rest : List Char) (h : '\n' ∉ a) :
    rustLines (a ++ '\n' :: rest) = stripCR a :: rustLines rest := by
  unfold rustLines
  rw [splitNl_sep_append a rest h]
  rcases hq : splitNl rest with _ | ⟨q, Q⟩
  · exact absurd hq (splitNl_ne_nil rest)
  · rw [List.getLast?_cons_cons, List.dropLast_cons₂, List.map_cons]
    rcases hz : (q :: Q).getLast? with _ | z
    · exact absurd (List.getLast?_eq_none_iff.mp hz) (by simp)
    · by_cases hzn : z = [] <;> simp [hzn]

theorem charVal_digitChar {n : Nat} (h : n < 10) : charVal (digitChar n) = n := by
  interval_cases n <;> decide

theorem digitChar_isDigit {n : Nat} (h : n < 10) : (digitChar n).isDigit = true := by
  interval_cases n <;> decide

theorem digitsGo_spec (f : Nat) : ∀ n : Nat, n < f →
    digitsVal (digitsGo f n) = n ∧ (digitsGo f n).all Char.isDigit = true ∧
      digitsGo f n ≠ [] := by
  induction f with
  | zero => intro n hn; omega
  | succ f ih =>
    intro n hn
    by_cases h10 : n < 10
    · rw [digitsGo, if_pos h10]
      exact ⟨by simp [digitsVal, charVal_digitChar h10],
        by simp [digitChar_isDigit h10], by simp⟩
    · have hdiv : n / 10 < f := by
        have : n / 10 < n := Nat.div_lt_self (by omega) (by omega)
        omega
      obtain ⟨ihv, iha, ihne⟩ := ih (n / 10) hdiv
      rw [digitsGo, if_neg h10]
      have hm : n % 10 < 10 := Nat.mod_lt _ (by omega)
      refine ⟨?_, ?_, by simp⟩
      · unfold digitsVal at ihv ⊢
        rw [List.foldl_concat, ihv, charVal_digitChar hm]
        omega
      · rw [List.all_append, iha]
        simp [digitChar_isDigit hm]

theorem natDigits_spec (n : Nat) :
    digitsVal (natDigits n) = n ∧ (natDigits n).all Char.isDigit = true ∧
      natDigits n ≠ [] :=
  digitsGo_spec (n + 1) n (Nat.lt_succ_self n)

theorem parseU32_natDigits (n : Nat) (h : n < 2 ^ 32) :
    parseU32 (natDigits n) = some n := by
  obtain ⟨hv, ha, hne⟩ := natDigits_spec n
  have hplus : ¬ (natDigits n).head? = some '+' := by
    intro hh
    have hmem : '+' ∈ natDigits n :=
      List.mem_of_mem_head? (Option.mem_def.mpr hh)
    have := List.all_eq_true.mp ha '+' hmem
    simp [Char.isDigit] at this
  rw [parseU32, if_neg hplus, parseU32Core, if_pos ⟨hne, ha⟩, hv, if_pos h]

theorem natDigits_digit_mem {n : Nat} {c : Char} (hc : c ∈ natDigits n) :
    c.isDigit = true :=
  List.all_eq_true.mp (natDigits_spec n).2.1 c hc

end PomodoroApp

namespace PomodoroApp

/-- The reset `load_todos` applies to every task: state `Idle`, no timer. -/
def reset_task (t : Task) : Task :=
  { t with pomodoro_state := .Idle, pomodoro_start := none }

theorem mem_task_line {c : Char} {t : Task} (hc : c ∈ task_line t) :
    c ∈ t.name.data ∨ c ∈ t.language.data ∨ c = ' ' ∨ c = '|'
      ∨ c ∈ natDigits t.completed_pomodoros := by
  unfold task_line at hc
  simp only [List.mem_append, List.mem_cons, List.mem_singleton,
    List.not_mem_nil, or_false] at hc
  tauto

theorem task_line_no_nl {t : Task} (h1 : '\n' ∉ t.name.data)
    (h2 : '\n' ∉ t.language.data) : '\n' ∉ task_line t := by
  intro hc
  rcases mem_task_line hc with h | h | h | h | h
  · exact h1 h
  · exact h2 h
  · exact absurd h (by decide)
  · exact absurd h (by decide)
  · exact absurd (natDigits_digit_mem h) (by decide)

theorem stripCR_task_line (t : Task) : stripCR (task_line t) = task_line t := by
  unfold stripCR
  rw [if_neg]
  intro hlast
  have hne : natDigits t.completed_pomodoros ≠ [] := (natDigits_spec _).2.2
  unfold task_line at hlast
  rw [List.getLast?_append_of_ne_nil _ hne] at hlast
  have hmem : '\r' ∈ natDigits t.completed_pomodoros := by
    have := List.getLast?_eq_getLast _ hne
    rw [this] at hlast
    simp only [Option.some.injEq] at hlast
    rw [← hlast]
    exact List.getLast_mem hne
  exact absurd (natDigits_digit_mem hmem) (by decide)

theorem splitPipe_task_line (t : Task) (h1 : '|' ∉ t.name.data)
    (h2 : '|' ∉ t.language.data) :
    splitPipe (task_line t) =
      [t.name.data, t.language.data, natDigits t.completed_pomodoros] := by
  have hd : '|' ∉ natDigits t.completed_pomodoros := fun hm =>
    absurd (natDigits_digit_mem hm) (by decide)
  unfold task_line
  have e1 : t.name.data ++ [' ', '|', ' '] ++ t.language.data ++ [' ', '|', ' ']
      ++ natDigits t.completed_pomodoros
      = t.name.data ++ ' ' :: '|' :: ' ' ::
        (t.language.data ++ ' ' :: '|' :: ' ' :: natDigits t.completed_pomodoros) := by
    simp [List.append_assoc]
  rw [e1, splitPipe_sep_append _ _ h1, splitPipe_sep_append _ _ h2,
    splitPipe_eq_single hd]

theorem parse_task_line_round (t : Task) (h1 : '|' ∉ t.name.data)
    (h2 : '|' ∉ t.language.data) (h3 : t.completed_pomodoros < 2 ^ 32) :
    parse_task_line (task_line t) = reset_task t := by
  unfold parse_task_line reset_task
  rw [splitPipe_task_line t h1 h2]
  simp only [List.headD_cons, List.getElem?_cons_zero, List.getElem?_cons_succ,
    Option.getD_some, Option.some_bind, parseU32_natDigits _ h3]

theorem load_save_chars (todos : List Task)
    (h : ∀ t ∈ todos, ('|' ∉ t.name.data ∧ '\n' ∉ t.name.data)
      ∧ ('|' ∉ t.language.data ∧ '\n' ∉ t.language.data)
      ∧ t.completed_pomodoros < 2 ^ 32) :
    (rustLines (todos.foldr (fun t acc => task_line t ++ '\n' :: acc) [])).map
        parse_task_line
      = todos.map reset_task := by
  induction todos with
  | nil => simp [rustLines_nil]
  | cons t ts ih =>
    obtain ⟨⟨hn1, hn2⟩, ⟨hl1, hl2⟩, hc⟩ := h t (List.mem_cons_self t ts)
    rw [List.foldr_cons, rustLines_line_append _ _ (task_line_no_nl hn2 hl2),
      List.map_cons, stripCR_task_line, parse_task_line_round t hn1 hl1 hc,
      List.map_cons, ih (fun u hu => h u (List.mem_cons_of_mem t hu))]

theorem load_save_roundtrip (todos : List Task)
    (h : ∀ t ∈ todos, ('|' ∉ t.name.data ∧ '\n' ∉ t.name.data)
      ∧ ('|' ∉ t.language.data ∧ '\n' ∉ t.language.data)
      ∧ t.completed_pomodoros < 2 ^ 32) :
    load_todos (some (save_todos todos)) = todos.map reset_task :=
  load_save_chars todos h

end PomodoroApp

namespace PomodoroApp

theorem isEmpty_false_of_some {a : App} {task : Task}
    (h : a.todos[a.selected_index]? = some task) : a.todos.isEmpty = false := by
  rcases hl : a.todos with _ | ⟨x, xs⟩
  · rw [hl] at h; simp at h
  · rfl

/-- Case analysis of `start_pomodoro`: either nothing happens (empty store /
out-of-range selection) or the selected task is set to `Work` with a fresh
timer. -/
theorem start_pomodoro_cases (now : Nat) (a : App) :
    start_pomodoro now a = a ∨
    ∃ task, a.todos[a.selected_index]? = some task ∧
      start_pomodoro now a =
        { a with
          todos := a.todos.set a.selected_index
            { task with pomodoro_state := .Work, pomodoro_start := some now }
          status_message :=
            some ("Started focus on '" ++ task.name ++ "'. Stay sharp!", now) } := by
  unfold start_pomodoro
  rcases hemp : a.todos.isEmpty with _ | _
  · rcases hsel : a.todos[a.selected_index]? with _ | task
    · left; rfl
    · right; exact ⟨task, rfl, rfl⟩
  · left; rfl

/-- Case analysis of `update_pomodoro`: either nothing happens, or one of
the two transitions fires on the selected task. -/
theorem update_pomodoro_cases (now : Nat) (a : App) :
    update_pomodoro now a = a ∨
    ∃ task start, a.todos[a.selected_index]? = some task ∧
      task.pomodoro_start = some start ∧
      ((task.pomodoro_state = .Work ∧ WORK_DURATION ≤ now - start ∧
        update_pomodoro now a =
          { a with
            todos := a.todos.set a.selected_index
              { task with
                pomodoro_state := .Break
                pomodoro_start := some now
                completed_pomodoros := task.completed_pomodoros + 1 }
            status_message :=
              some ("Work session done! Take a break, " ++ task.name ++ ".", now) }) ∨
       (task.pomodoro_state = .Break ∧ BREAK_DURATION ≤ now - start ∧
        update_pomodoro now a =
          { a with
            todos := a.todos.set a.selected_index
              { task with pomodoro_state := .Idle, pomodoro_start := none }
            status_message :=
              some ("Break finished. Ready for another round?", now) })) := by
  unfold update_pomodoro
  rcases hemp : a.todos.isEmpty with _ | _
  · rcases hsel : a.todos[a.selected_index]? with _ | task
    · left; rfl
    · rcases hs : task.pomodoro_start with _ | s
      · left; simp [hs]
      · rcases hst : task.pomodoro_state with _ | _ | _
        · left; simp [hs, hst]
        · by_cases hge : WORK_DURATION ≤ now - s
          · right
            refine ⟨task, s, rfl, hs, Or.inl ⟨hst, hge, ?_⟩⟩
            simp [hs, hst, if_pos hge]
          · left; simp [hs, hst, if_neg hge]
        · by_cases hge : BREAK_DURATION ≤ now - s
          · right
            refine ⟨task, s, rfl, hs, Or.inr ⟨hst, hge, ?_⟩⟩
            simp [hs, hst, if_pos hge]
          · left; simp [hs, hst, if_neg hge]
  · left; rfl

end PomodoroApp

namespace PomodoroApp

theorem update_pomodoro_empty (now : Nat) {a : App} (h : a.todos = []) :
    update_pomodoro now a = a := by
  unfold update_pomodoro
  rw [h]
  rfl

theorem start_pomodoro_empty (now : Nat) {a : App} (h : a.todos = []) :
    start_pomodoro now a = a := by
  unfold start_pomodoro
  rw [h]
  rfl

theorem start_pomodoro_some (now : Nat) {a : App} {task : Task}
    (hsel : a.todos[a.selected_index]? = some task) :
    start_pomodoro now a =
      { a with
        todos := a.todos.set a.selected_index
          { task with pomodoro_state := .Work, pomodoro_start := some now }
        status_message :=
          some ("Started focus on '" ++ task.name ++ "'. Stay sharp!", now) } := by
  unfold start_pomodoro
  rw [isEmpty_false_of_some hsel, hsel]
  rfl

theorem update_pomodoro_noop_start_none (now : Nat) {a : App} {task : Task}
    (hsel : a.todos[a.selected_index]? = some task)
    (hs : task.pomodoro_start = none) : update_pomodoro now a = a := by
  unfold update_pomodoro
  rw [isEmpty_false_of_some hsel, hsel]
  simp [hs]

theorem update_pomodoro_noop_idle (now : Nat) {a : App} {task : Task}
    (hsel : a.todos[a.selected_index]? = some task)
    (hst : task.pomodoro_state = .Idle) : update_pomodoro now a = a := by
  unfold update_pomodoro
  rw [isEmpty_false_of_some hsel, hsel]
  rcases hs : task.pomodoro_start with _ | s <;> simp [hs, hst]

theorem update_pomodoro_noop_work_lt (now : Nat) {a : App} {task : Task} {s : Nat}
    (hsel : a.todos[a.selected_index]? = some task)
    (hs : task.pomodoro_start = some s) (hst : task.pomodoro_state = .Work)
    (hlt : now - s < WORK_DURATION) : update_pomodoro now a = a := by
  unfold update_pomodoro
  rw [isEmpty_false_of_some hsel, hsel]
  simp [hs, hst, Nat.not_le.mpr hlt]

theorem update_pomodoro_noop_break_lt (now : Nat) {a : App} {task : Task} {s : Nat}
    (hsel : a.todos[a.selected_index]? = some task)
    (hs : task.pomodoro_start = some s) (hst : task.pomodoro_state = .Break)
    (hlt : now - s < BREAK_DURATION) : update_pomodoro now a = a := by
  unfold update_pomodoro
  rw [isEmpty_false_of_some hsel, hsel]
  simp [hs, hst, Nat.not_le.mpr hlt]

theorem update_pomodoro_work_to_break (now : Nat) {a : App} {task : Task} {s : Nat}
    (hsel : a.todos[a.selected_index]? = some task)
    (hs : task.pomodoro_start = some s) (hst : task.pomodoro_state = .Work)
    (hge : WORK_DURATION ≤ now - s) :
    update_pomodoro now a =
      { a with
        todos := a.todos.set a.selected_index
          { task with
            pomodoro_state := .Break
            pomodoro_start := some now
            completed_pomodoros := task.completed_pomodoros + 1 }
        status_message :=
          some ("Work session done! Take a break, " ++ task.name ++ ".", now) } := by
  unfold update_pomodoro
  rw [isEmpty_false_of_some hsel, hsel]
  simp [hs, hst, if_pos hge]

theorem update_pomodoro_break_to_idle (now : Nat) {a : App} {task : Task} {s : Nat}
    (hsel : a.todos[a.selected_index]? = some task)
    (hs : task.pomodoro_start = some s) (hst : task.pomodoro_state = .Break)
    (hge : BREAK_DURATION ≤ now - s) :
    update_pomodoro now a =
      { a with
        todos := a.todos.set a.selected_index
          { task with pomodoro_state := .Idle, pomodoro_start := none }
        status_message :=
          some ("Break finished. Ready for another round?", now) } := by
  unfold update_pomodoro
  rw [isEmpty_false_of_some hsel, hsel]
  simp [hs, hst, if_pos hge]

end PomodoroApp

namespace PomodoroApp

/-- C1: for the selected task of a non-empty store, `update_pomodoro`
transitions `Work → Break` exactly when `elapsed ≥ WORK_DURATION` (1500 s),
resetting the timer to `now` and incrementing `completed_pomodoros` by
exactly 1; transitions `Break → Idle` exactly when
`elapsed ≥ BREAK_DURATION` (300 s), clearing the timer; performs no
transition below the phase threshold; and is a no-op on an empty store or
an `Idle` task.  A `Work` task with `timer_start = now - 1500 s` exactly
transitions on one tick, and a further tick before `BREAK_DURATION`
elapses changes nothing. -/
theorem C1_tick_state_machine (a : App) (now later s : Nat) :
    (a.todos = [] → update_pomodoro now a = a) ∧
    (∀ task, a.todos[a.selected_index]? = some task →
      task.pomodoro_state = PomodoroState.Idle → update_pomodoro now a = a) ∧
    (∀ task, a.todos[a.selected_index]? = some task →
      task.pomodoro_start = some s →
      (task.pomodoro_state = PomodoroState.Work → now - s < WORK_DURATION →
        update_pomodoro now a = a) ∧
      (task.pomodoro_state = PomodoroState.Break → now - s < BREAK_DURATION →
        update_pomodoro now a = a) ∧
      (task.pomodoro_state = PomodoroState.Work → WORK_DURATION ≤ now - s →
        (update_pomodoro now a).todos = a.todos.set a.selected_index
          { task with
            pomodoro_state := .Break
            pomodoro_start := some now
            completed_pomodoros := task.completed_pomodoros + 1 }) ∧
      (task.pomodoro_state = PomodoroState.Break → BREAK_DURATION ≤ now - s →
        (update_pomodoro now a).todos = a.todos.set a.selected_index
          { task with pomodoro_state := .Idle, pomodoro_start := none })) ∧
    (∀ task, a.todos[a.selected_index]? = some task →
      task.pomodoro_start = some s → task.pomodoro_state = PomodoroState.Work →
      now = s + WORK_DURATION →
      (update_pomodoro now a).todos[a.selected_index]? =
        some { task with
          pomodoro_state := .Break
          pomodoro_start := some now
          completed_pomodoros := task.completed_pomodoros + 1 } ∧
      (later - now < BREAK_DURATION →
        update_pomodoro later (update_pomodoro now a) = update_pomodoro now a)) := by
  refine ⟨fun h => update_pomodoro_empty now h,
    fun task hsel hst => update_pomodoro_noop_idle now hsel hst,
    fun task hsel hs =>
      ⟨fun hst hlt => update_pomodoro_noop_work_lt now hsel hs hst hlt,
       fun hst hlt => update_pomodoro_noop_break_lt now hsel hs hst hlt,
       fun hst hge => by rw [update_pomodoro_work_to_break now hsel hs hst hge],
       fun hst hge => by rw [update_pomodoro_break_to_idle now hsel hs hst hge]⟩,
    fun task hsel hs hst hnow => ?_⟩
  have hge : WORK_DURATION ≤ now - s := by omega
  have heq := update_pomodoro_work_to_break now hsel hs hst hge
  have hlen : a.selected_index < a.todos.length :=
    (List.getElem?_eq_some.mp hsel).1
  have hsel' : (update_pomodoro now a).todos[(update_pomodoro now a).selected_index]? =
      some { task with
        pomodoro_state := .Break
        pomodoro_start := some now
        completed_pomodoros := task.completed_pomodoros + 1 } := by
    simp only [heq]
    exact List.getElem?_set_self hlen
  refine ⟨?_, fun hlt2 => ?_⟩
  · simp only [heq]
    exact List.getElem?_set_self hlen
  · exact update_pomodoro_noop_break_lt later hsel' rfl rfl hlt2

def c1App : App :=
  { todos := [⟨"T", "R", .Work, some 0, 0⟩], input := "", language_input := ""
    selected_index := 0, input_mode := .NoTyping, cursor_position := 0
    status_message := none }

/-- Witness for C1 at a concrete state: one `Work` task started at 0,
ticked at 1500 and again at 1700. -/
theorem C1_tick_witness :
    (update_pomodoro 1500 c1App).todos[c1App.selected_index]? =
      some ⟨"T", "R", .Break, some 1500, 1⟩ ∧
    update_pomodoro 1700 (update_pomodoro 1500 c1App) = update_pomodoro 1500 c1App := by
  have h := (C1_tick_state_machine c1App 1500 1700 0).2.2.2
    ⟨"T", "R", .Work, some 0, 0⟩ (by decide) rfl rfl (by decide)
  exact ⟨h.1, h.2 (by decide)⟩

end PomodoroApp

namespace PomodoroApp

/-- C10: `start_pomodoro` and `update_pomodoro` mutate at most the task at
`selected_index` and `status_message`: every other task, the task count,
`selected_index`, both text buffers, the input mode and the cursor are
unchanged; and `start_pomodoro` never changes the selected task's
`completed_pomodoros`. -/
theorem C10_engine_frame (a : App) (now : Nat) (j : Nat) :
    ((start_pomodoro now a).todos.length = a.todos.length ∧
     (j ≠ a.selected_index → (start_pomodoro now a).todos[j]? = a.todos[j]?) ∧
     (start_pomodoro now a).selected_index = a.selected_index ∧
     (start_pomodoro now a).input = a.input ∧
     (start_pomodoro now a).language_input = a.language_input ∧
     (start_pomodoro now a).input_mode = a.input_mode ∧
     (start_pomodoro now a).cursor_position = a.cursor_position) ∧
    ((update_pomodoro now a).todos.length = a.todos.length ∧
     (j ≠ a.selected_index → (update_pomodoro now a).todos[j]? = a.todos[j]?) ∧
     (update_pomodoro now a).selected_index = a.selected_index ∧
     (update_pomodoro now a).input = a.input ∧
     (update_pomodoro now a).language_input = a.language_input ∧
     (update_pomodoro now a).input_mode = a.input_mode ∧
     (update_pomodoro now a).cursor_position = a.cursor_position) ∧
    ((start_pomodoro now a).todos[a.selected_index]?.map Task.completed_pomodoros
      = a.todos[a.selected_index]?.map Task.completed_pomodoros) := by
  refine ⟨?_, ?_, ?_⟩
  · rcases start_pomodoro_cases now a with h | ⟨task, hsel, h⟩ <;> rw [h]
    · exact ⟨rfl, fun _ => rfl, rfl, rfl, rfl, rfl, rfl⟩
    · exact ⟨List.length_set a.todos _ _,
        fun hj => List.getElem?_set_ne (Ne.symm hj), rfl, rfl, rfl, rfl, rfl⟩
  · rcases update_pomodoro_cases now a with h | ⟨task, s, hsel, hs, hc⟩
    · rw [h]
      exact ⟨rfl, fun _ => rfl, rfl, rfl, rfl, rfl, rfl⟩
    · rcases hc with ⟨_, _, h⟩ | ⟨_, _, h⟩ <;> rw [h] <;>
        exact ⟨List.length_set a.todos _ _,
          fun hj => List.getElem?_set_ne (Ne.symm hj), rfl, rfl, rfl, rfl, rfl⟩
  · rcases start_pomodoro_cases now a with h | ⟨task, hsel, h⟩
    · rw [h]
    · rw [h]
      have hlen : a.selected_index < a.todos.length :=
        (List.getElem?_eq_some.mp hsel).1
      simp [List.getElem?_set_self hlen, hsel]

def c10App : App :=
  { todos := [⟨"T", "R", .Work, some 0, 2⟩, ⟨"U", "S", .Idle, none, 5⟩]
    input := "", language_input := "", selected_index := 0
    input_mode := .NoTyping, cursor_position := 0, status_message := none }

/-- Witness for C10 at a concrete two-task state. -/
theorem C10_engine_frame_witness :
    (start_pomodoro 5 c10App).todos[1]? = c10App.todos[1]? ∧
    (update_pomodoro 5 c10App).todos[1]? = c10App.todos[1]? ∧
    (start_pomodoro 5 c10App).todos[c10App.selected_index]?.map
        Task.completed_pomodoros
      = c10App.todos[c10App.selected_index]?.map Task.completed_pomodoros := by
  have h := C10_engine_frame c10App 5 1
  exact ⟨h.1.2.1 (by decide), h.2.1.2.1 (by decide), h.2.2⟩

end PomodoroApp

namespace PomodoroApp

/-- The spec's data-model invariant: `state == Idle ⇔ timer_start == None`. -/
def TaskInv (t : Task) : Prop :=
  t.pomodoro_state = PomodoroState.Idle ↔ t.pomodoro_start = none

instance (t : Task) : Decidable (TaskInv t) := by
  unfold TaskInv; infer_instance

/-- The invariant holds for every task of the store. -/
def AppInv (a : App) : Prop := ∀ t ∈ a.todos, TaskInv t

instance (a : App) : Decidable (AppInv a) := by
  unfold AppInv; infer_instance

theorem AppInv_of_todos_eq {a b : App} (h : b.todos = a.todos) (ha : AppInv a) :
    AppInv b := fun t ht => ha t (h ▸ ht)

theorem handle_input_todos (c : Char) (a : App) :
    (handle_input c a).todos = a.todos := by
  unfold handle_input
  split <;> rfl

theorem handle_backspace_todos (a : App) :
    (handle_backspace a).todos = a.todos := by
  unfold handle_backspace
  split <;> first | rfl | (split <;> rfl)

theorem AppInv_start (now : Nat) {a : App} (h : AppInv a) :
    AppInv (start_pomodoro now a) := by
  rcases start_pomodoro_cases now a with heq | ⟨task, hsel, heq⟩ <;> rw [heq]
  · exact h
  · intro t ht
    simp only at ht
    rcases List.mem_or_eq_of_mem_set ht with hmem | rfl
    · exact h t hmem
    · exact ⟨fun hc => by simp at hc, fun hc => by simp at hc⟩

theorem AppInv_update (now : Nat) {a : App} (h : AppInv a) :
    AppInv (update_pomodoro now a) := by
  rcases update_pomodoro_cases now a with heq | ⟨task, s, hsel, hs, hc⟩
  · rw [heq]; exact h
  · rcases hc with ⟨_, _, heq⟩ | ⟨_, _, heq⟩ <;> rw [heq] <;> intro t ht <;>
      simp only at ht
    · rcases List.mem_or_eq_of_mem_set ht with hmem | rfl
      · exact h t hmem
      · exact ⟨fun hc => by simp at hc, fun hc => by simp at hc⟩
    · rcases List.mem_or_eq_of_mem_set ht with hmem | rfl
      · exact h t hmem
      · exact ⟨fun _ => rfl, fun _ => rfl⟩

theorem TaskInv_load (content : Option String) :
    ∀ t ∈ load_todos content, TaskInv t := by
  rcases content with _ | s
  · intro t ht; simp [load_todos] at ht
  · intro t ht
    unfold load_todos at ht
    rcases List.mem_map.mp ht with ⟨l, _, rfl⟩
    exact ⟨fun _ => rfl, fun _ => rfl⟩

theorem AppInv_handle_key (now : Nat) {a : App} (k : KeyEvent) (h : AppInv a) :
    AppInv (handle_key now a k).app := by
  cases k with
  | char c =>
    by_cases hq : c = 'q'
    · exact AppInv_of_todos_eq (by simp [handle_key, hq]) h
    · by_cases hp : c = 'p'
      · have e : (handle_key now a (.char c)).app = start_pomodoro now a := by
          simp [handle_key, hq, hp]
        rw [e]; exact AppInv_start now h
      · by_cases hi : c = 'i'
        · exact AppInv_of_todos_eq (by simp [handle_key, hq, hp, hi]) h
        · have e : (handle_key now a (.char c)).app = handle_input c a := by
            simp [handle_key, hq, hp, hi]
          rw [e]; exact AppInv_of_todos_eq (handle_input_todos c a) h
  | esc => exact AppInv_of_todos_eq rfl h
  | backspace => exact AppInv_of_todos_eq (handle_backspace_todos a) h
  | enter =>
    rcases hm : a.input_mode with _ | _ | _
    · refine AppInv_of_todos_eq ?_ h
      simp only [handle_key, hm]
      split <;> rfl
    · by_cases hl : strTrim a.language_input ≠ ""
      · have e : (handle_key now a .enter).app.todos = a.todos ++
            [{ name := strTrim a.input, language := strTrim a.language_input
               pomodoro_state := .Idle, pomodoro_start := none
               completed_pomodoros := 0 }] := by
          simp [handle_key, hm, hl]
        intro t ht
        rw [e] at ht
        rcases List.mem_append.mp ht with hmem | hmem
        · exact h t hmem
        · rw [List.mem_singleton.mp hmem]
          exact ⟨fun _ => rfl, fun _ => rfl⟩
      · refine AppInv_of_todos_eq ?_ h
        simp [handle_key, hm, hl]
    · exact AppInv_of_todos_eq (by simp [handle_key, hm]) h
  | delete =>
    rcases hsel : a.todos[a.selected_index]? with _ | removed
    · exact AppInv_of_todos_eq (by simp [handle_key, hsel]) h
    · have e : (handle_key now a .delete).app.todos =
          a.todos.eraseIdx a.selected_index := by
        simp [handle_key, hsel]
      intro t ht
      rw [e] at ht
      exact h t ((List.eraseIdx_sublist a.todos a.selected_index).mem ht)
  | up =>
    refine AppInv_of_todos_eq ?_ h
    simp only [handle_key]
    split <;> rfl
  | down =>
    refine AppInv_of_todos_eq ?_ h
    simp only [handle_key]
    split <;> rfl

/-- C2: in every reachable state, a task is `Idle` iff its timer is unset:
the invariant is preserved by `start_pomodoro`, `update_pomodoro`, and
every key event (wizard task creation, deletion, and the rest of the
dispatch), and it holds for every task produced by `load_todos`. -/
theorem C2_idle_iff_no_timer (a : App) (now : Nat) (k : KeyEvent)
    (content : Option String) (h : AppInv a) :
    AppInv (start_pomodoro now a) ∧ AppInv (update_pomodoro now a) ∧
    AppInv (handle_key now a k).app ∧ ∀ t ∈ load_todos content, TaskInv t :=
  ⟨AppInv_start now h, AppInv_update now h, AppInv_handle_key now k h,
    TaskInv_load content⟩

def c2App : App :=
  { todos := [⟨"T", "R", .Work, some 3, 0⟩, ⟨"U", "S", .Idle, none, 1⟩]
    input := "nm", language_input := "lg", selected_index := 0
    input_mode := .Language, cursor_position := 2, status_message := none }

/-- Witness for C2 at a concrete state and key event. -/
theorem C2_idle_iff_no_timer_witness :
    AppInv c2App ∧
    (AppInv (start_pomodoro 9 c2App) ∧ AppInv (update_pomodoro 9 c2App) ∧
      AppInv (handle_key 9 c2App .enter).app ∧
      ∀ t ∈ load_todos (some "a | b\nc"), TaskInv t) :=
  ⟨by decide, C2_idle_iff_no_timer c2App 9 .enter (some "a | b\nc") (by decide)⟩

end PomodoroApp

namespace PomodoroApp

/-- C6: deleting the selected task of a non-empty store (with a valid
selection) leaves either an empty store or a valid selection; the re-clamp
decrements `selected_index` by one exactly when it is `≥` the new length
and positive. -/
theorem C6_delete_reclamp (a : App) (now : Nat)
    (hne : a.todos ≠ []) (hsel : a.selected_index < a.todos.length) :
    (handle_key now a .delete).app.todos.length = a.todos.length - 1 ∧
    ((handle_key now a .delete).app.todos = [] ∨
      (handle_key now a .delete).app.selected_index <
        (handle_key now a .delete).app.todos.length) ∧
    (handle_key now a .delete).app.selected_index =
      (if a.todos.length - 1 ≤ a.selected_index ∧ 0 < a.selected_index then
        a.selected_index - 1
      else a.selected_index) := by
  have hget : a.todos[a.selected_index]? = some a.todos[a.selected_index] :=
    List.getElem?_eq_getElem hsel
  have hlen : (a.todos.eraseIdx a.selected_index).length = a.todos.length - 1 := by
    rw [List.length_eraseIdx, if_pos hsel]
  have happ : (handle_key now a .delete).app =
      { a with
        todos := a.todos.eraseIdx a.selected_index
        selected_index :=
          if (a.todos.eraseIdx a.selected_index).length ≤ a.selected_index
              ∧ 0 < a.selected_index then
            a.selected_index - 1
          else a.selected_index
        status_message :=
          some ("Removed '" ++ a.todos[a.selected_index].name ++ "'.", now) } := by
    simp [handle_key, hget]
  rw [happ]
  refine ⟨hlen, ?_, by rw [hlen]⟩
  simp only [hlen]
  rcases Nat.eq_or_lt_of_le (Nat.one_le_iff_ne_zero.mpr
    (fun h0 => hne (List.length_eq_zero.mp h0))) with h1 | h1
  · left
    have h0 : (a.todos.eraseIdx a.selected_index).length = 0 := by omega
    exact List.length_eq_zero.mp h0
  · right
    split <;> omega

end PomodoroApp

namespace PomodoroApp

def c6App : App :=
  { todos := [⟨"T", "R", .Idle, none, 0⟩, ⟨"U", "S", .Idle, none, 1⟩]
    input := "", language_input := "", selected_index := 1
    input_mode := .NoTyping, cursor_position := 0, status_message := none }

/-- Witness for C6: deleting the last of two tasks re-clamps the selection
from 1 to 0. -/
theorem C6_delete_reclamp_witness :
    c6App.todos ≠ [] ∧ c6App.selected_index < c6App.todos.length ∧
    ((handle_key 0 c6App .delete).app.todos = [] ∨
      (handle_key 0 c6App .delete).app.selected_index <
        (handle_key 0 c6App .delete).app.todos.length) ∧
    (handle_key 0 c6App .delete).app.selected_index =
      c6App.selected_index - 1 := by
  have h := C6_delete_reclamp c6App 0 (by decide) (by decide)
  exact ⟨by decide, by decide, h.2.1, (h.2.2).trans (by decide)⟩

/-- The state used to exhibit the C3 counterexample: the user is typing a
task name. -/
def c3App : App :=
  { todos := [], input := "ab", language_input := "", selected_index := 0
    input_mode := .Task, cursor_position := 2, status_message := none }

/-- C3 counterexample: in `TaskInput` mode the literal characters `'i'`,
`'p'` and `'q'` are NOT appended to the text buffer; `'i'` is dispatched as
the enter-task-input command (buffer unchanged, cursor reset) and `'q'`
quits. -/
theorem C3_counterexample :
    (handle_key 0 c3App (.char 'i')).app.input = "ab" ∧
    (handle_key 0 c3App (.char 'i')).app ≠ handle_input 'i' c3App ∧
    (handle_key 0 c3App (.char 'i')).app.cursor_position = 0 ∧
    (handle_key 0 c3App (.char 'q')).quit = true ∧
    (handle_key 0 c3App (.char 'q')).app.input = "ab" := by decide

/-- C3 (amended): while the input mode is `TaskInput` or `LanguageInput`,
every character other than the three command characters `'q'`, `'p'`,
`'i'` is appended to the active text buffer; those three are dispatched as
global commands (quit / start timer / enter task-input mode) even while
typing, because the command arms of the key dispatch precede the
catch-all character arm. -/
theorem C3_typing_capture (a : App) (now : Nat) (c : Char)
    (hmode : a.input_mode = InputMode.Task ∨ a.input_mode = InputMode.Language)
    (hq : c ≠ 'q') (hp : c ≠ 'p') (hi : c ≠ 'i') :
    ((handle_key now a (.char c)).app = handle_input c a ∧
      (a.input_mode = InputMode.Task →
        (handle_key now a (.char c)).app.input = a.input.push c) ∧
      (a.input_mode = InputMode.Language →
        (handle_key now a (.char c)).app.language_input =
          a.language_input.push c)) ∧
    (handle_key now a (.char 'q')).quit = true ∧
    (handle_key now a (.char 'q')).app = a ∧
    (handle_key now a (.char 'p')).app = start_pomodoro now a ∧
    (handle_key now a (.char 'i')).app =
      { a with input_mode := .Task, cursor_position := 0 } := by
  have e : (handle_key now a (.char c)).app = handle_input c a := by
    simp [handle_key, hq, hp, hi]
  refine ⟨⟨e, ?_, ?_⟩, by simp [handle_key], by simp [handle_key],
    by simp [handle_key], by simp [handle_key]⟩
  · intro hm
    rw [e]
    unfold handle_input
    rw [hm]
  · intro hm
    rw [e]
    unfold handle_input
    rw [hm]

/-- Witness for the amended C3: typing `'x'` in task-input mode appends it
to the name buffer. -/
theorem C3_typing_capture_witness :
    (handle_key 0 c3App (.char 'x')).app.input = "ab".push 'x' ∧
    (handle_key 0 c3App (.char 'p')).app = start_pomodoro 0 c3App :=
  ⟨(C3_typing_capture c3App 0 'x' (Or.inl rfl) (by decide) (by decide)
      (by decide)).1.2.1 rfl,
    (C3_typing_capture c3App 0 'x' (Or.inl rfl) (by decide) (by decide)
      (by decide)).2.2.2.1⟩

end PomodoroApp

namespace PomodoroApp

/-- C8: in the creation wizard, Enter with a blank (after trimming) active
field neither creates a task nor changes any state; Enter in language-input
mode with both fields non-blank appends exactly one new `Idle` task with
zero completed count, persists the store, clears both buffers and returns
the input mode to `NoTyping`. -/
theorem C8_wizard_enter (a : App) (now : Nat) :
    (a.input_mode = InputMode.Task → strTrim a.input = "" →
      handle_key now a .enter = ⟨a, none, false⟩) ∧
    (a.input_mode = InputMode.Language → strTrim a.language_input = "" →
      handle_key now a .enter = ⟨a, none, false⟩) ∧
    (a.input_mode = InputMode.Language → strTrim a.input ≠ "" →
      strTrim a.language_input ≠ "" →
      (handle_key now a .enter).app.todos = a.todos ++
        [{ name := strTrim a.input
           language := strTrim a.language_input
           pomodoro_state := .Idle
           pomodoro_start := none
           completed_pomodoros := 0 }] ∧
      (handle_key now a .enter).saved =
        some ((handle_key now a .enter).app.todos) ∧
      (handle_key now a .enter).app.input = "" ∧
      (handle_key now a .enter).app.language_input = "" ∧
      (handle_key now a .enter).app.input_mode = InputMode.NoTyping) := by
  refine ⟨fun hm ht => ?_, fun hm hl => ?_, fun hm _ hl => ?_⟩
  · simp [handle_key, hm, ht]
  · simp [handle_key, hm, hl]
  · simp [handle_key, hm, hl]

def c8AppFail : App :=
  { todos := [], input := "task", language_input := "   ", selected_index := 0
    input_mode := .Language, cursor_position := 3, status_message := none }

def c8AppOk : App :=
  { todos := [], input := " task ", language_input := " Rust ", selected_index := 0
    input_mode := .Language, cursor_position := 6, status_message := none }

/-- Witness for C8: a whitespace-only language rejects the confirmation
unchanged; non-blank fields append one trimmed `Idle` task. -/
theorem C8_wizard_enter_witness :
    handle_key 0 c8AppFail .enter = ⟨c8AppFail, none, false⟩ ∧
    (handle_key 0 c8AppOk .enter).app.todos =
      [⟨"task", "Rust", .Idle, none, 0⟩] ∧
    (handle_key 0 c8AppOk .enter).app.input_mode = InputMode.NoTyping := by
  have h1 := (C8_wizard_enter c8AppFail 0).2.1 rfl (by decide)
  have h2 := (C8_wizard_enter c8AppOk 0).2.2 rfl (by decide) (by decide)
  exact ⟨h1, h2.1.trans (by decide), h2.2.2.2.2⟩

/-- Non-emptiness of every stored name, plus the wizard-mode invariant that
makes it inductive: in language-input mode the pending name is non-blank. -/
def NameInv (a : App) : Prop :=
  (∀ t ∈ a.todos, t.name ≠ "") ∧
  (a.input_mode = InputMode.Language → strTrim a.input ≠ "")

instance (a : App) : Decidable (NameInv a) := by
  unfold NameInv; infer_instance

theorem handle_input_mode (c : Char) (a : App) :
    (handle_input c a).input_mode = a.input_mode := by
  unfold handle_input; split <;> rfl

theorem handle_input_input_of_lang (c : Char) {a : App}
    (hm : a.input_mode = InputMode.Language) :
    (handle_input c a).input = a.input := by
  unfold handle_input; rw [hm]

theorem handle_backspace_mode (a : App) :
    (handle_backspace a).input_mode = a.input_mode := by
  unfold handle_backspace; split <;> first | rfl | (split <;> rfl)

theorem handle_backspace_input_of_lang {a : App}
    (hm : a.input_mode = InputMode.Language) :
    (handle_backspace a).input = a.input := by
  unfold handle_backspace; simp only [hm]; split <;> rfl

theorem NameInv_start (now : Nat) {a : App} (h : NameInv a) :
    NameInv (start_pomodoro now a) := by
  obtain ⟨hn, hw⟩ := h
  rcases start_pomodoro_cases now a with heq | ⟨task, hsel, heq⟩ <;> rw [heq]
  · exact ⟨hn, hw⟩
  · refine ⟨?_, hw⟩
    intro t ht
    simp only at ht
    rcases List.mem_or_eq_of_mem_set ht with hmem | rfl
    · exact hn t hmem
    · exact hn task (List.getElem?_mem hsel)

theorem NameInv_update (now : Nat) {a : App} (h : NameInv a) :
    NameInv (update_pomodoro now a) := by
  obtain ⟨hn, hw⟩ := h
  rcases update_pomodoro_cases now a with heq | ⟨task, s, hsel, hs, hc⟩
  · rw [heq]; exact ⟨hn, hw⟩
  · rcases hc with ⟨_, _, heq⟩ | ⟨_, _, heq⟩ <;> rw [heq] <;> refine ⟨?_, hw⟩ <;>
      intro t ht <;> simp only at ht <;>
      rcases List.mem_or_eq_of_mem_set ht with hmem | rfl
    · exact hn t hmem
    · exact hn task (List.getElem?_mem hsel)
    · exact hn t hmem
    · exact hn task (List.getElem?_mem hsel)

theorem NameInv_handle_key (now : Nat) (k : KeyEvent) {a : App} (h : NameInv a) :
    NameInv (handle_key now a k).app := by
  obtain ⟨hn, hw⟩ := h
  cases k with
  | char c =>
    by_cases hq : c = 'q'
    · have e : (handle_key now a (.char c)).app = a := by simp [handle_key, hq]
      rw [e]; exact ⟨hn, hw⟩
    · by_cases hp : c = 'p'
      · have e : (handle_key now a (.char c)).app = start_pomodoro now a := by
          simp [handle_key, hq, hp]
        rw [e]; exact NameInv_start now ⟨hn, hw⟩
      · by_cases hi : c = 'i'
        · have e : (handle_key now a (.char c)).app =
              { a with input_mode := .Task, cursor_position := 0 } := by
            simp [handle_key, hq, hp, hi]
          rw [e]
          exact ⟨hn, fun hm => absurd hm (by simp)⟩
        · have e : (handle_key now a (.char c)).app = handle_input c a := by
            simp [handle_key, hq, hp, hi]
          rw [e]
          refine ⟨fun t ht => hn t (handle_input_todos c a ▸ ht), fun hm => ?_⟩
          rw [handle_input_mode] at hm
          rw [handle_input_input_of_lang c hm]
          exact hw hm
  | esc =>
    exact ⟨fun t ht => hn t ht, fun hm => absurd hm (by simp [handle_key] at hm ⊢)⟩
  | backspace =>
    have e : (handle_key now a .backspace).app = handle_backspace a := rfl
    rw [e]
    refine ⟨fun t ht => hn t (handle_backspace_todos a ▸ ht), fun hm => ?_⟩
    have hm' : a.input_mode = InputMode.Language := by
      rw [← handle_backspace_mode a]; exact hm
    rw [handle_backspace_input_of_lang hm']
    exact hw hm'
  | enter =>
    rcases hm : a.input_mode with _ | _ | _
    · by_cases ht : strTrim a.input = ""
      · have e : handle_key now a .enter = ⟨a, none, false⟩ := by
          simp [handle_key, hm, ht]
        rw [e]; exact ⟨hn, hw⟩
      · have e : (handle_key now a .enter).app =
            { a with input_mode := .Language, cursor_position := 0 } := by
          simp [handle_key, hm, ht]
        rw [e]
        exact ⟨hn, fun _ => ht⟩
    · by_cases hl : strTrim a.language_input = ""
      · have e : handle_key now a .enter = ⟨a, none, false⟩ := by
          simp [handle_key, hm, hl]
        rw [e]; exact ⟨hn, hw⟩
      · have e : (handle_key now a .enter).app.todos = a.todos ++
            [{ name := strTrim a.input
               language := strTrim a.language_input
               pomodoro_state := .Idle
               pomodoro_start := none
               completed_pomodoros := 0 }] := by
          simp [handle_key, hm, hl]
        have emode : (handle_key now a .enter).app.input_mode =
            InputMode.NoTyping := by
          simp [handle_key, hm, hl]
        refine ⟨fun t ht => ?_, fun hmm => absurd (emode ▸ hmm) (by simp)⟩
        rw [e] at ht
        rcases List.mem_append.mp ht with hmem | hmem
        · exact hn t hmem
        · rw [List.mem_singleton.mp hmem]
          exact hw hm
    · have e : handle_key now a .enter = ⟨a, none, false⟩ := by
        simp [handle_key, hm]
      rw [e]; exact ⟨hn, hw⟩
  | delete =>
    rcases hsel : a.todos[a.selected_index]? with _ | removed
    · have e : handle_key now a .delete = ⟨a, none, false⟩ := by
        simp [handle_key, hsel]
      rw [e]; exact ⟨hn, hw⟩
    · have e : (handle_key now a .delete).app.todos =
          a.todos.eraseIdx a.selected_index := by
        simp [handle_key, hsel]
      have emode : (handle_key now a .delete).app.input_mode = a.input_mode := by
        simp [handle_key, hsel]
      have einp : (handle_key now a .delete).app.input = a.input := by
        simp [handle_key, hsel]
      refine ⟨fun t ht => ?_, fun hm => ?_⟩
      · rw [e] at ht
        exact hn t ((List.eraseIdx_sublist a.todos a.selected_index).mem ht)
      · rw [einp]; exact hw (emode ▸ hm)
  | up =>
    have e : (handle_key now a .up).app.todos = a.todos ∧
        (handle_key now a .up).app.input_mode = a.input_mode ∧
        (handle_key now a .up).app.input = a.input := by
      simp only [handle_key]; split <;> exact ⟨rfl, rfl, rfl⟩
    exact ⟨fun t ht => hn t (e.1 ▸ ht), fun hm => e.2.2 ▸ hw (e.2.1 ▸ hm)⟩
  | down =>
    have e : (handle_key now a .down).app.todos = a.todos ∧
        (handle_key now a .down).app.input_mode = a.input_mode ∧
        (handle_key now a .down).app.input = a.input := by
      simp only [handle_key]; split <;> exact ⟨rfl, rfl, rfl⟩
    exact ⟨fun t ht => hn t (e.1 ▸ ht), fun hm => e.2.2 ▸ hw (e.2.1 ▸ hm)⟩

end PomodoroApp

namespace PomodoroApp

/-- C9 counterexample: a backing file consisting of one blank line loads as
one task whose name is the empty string, so not every task in every
reachable store has a non-empty name. -/
theorem C9_counterexample :
    load_todos (some "\n") = [⟨"", "Unknown", .Idle, none, 0⟩] ∧
    ¬ (∀ t ∈ load_todos (some "\n"), t.name ≠ "") := by decide

/-- C9 (amended): every task created through the wizard has a non-empty
(trimmed) name, and `start_pomodoro`, `update_pomodoro` and every key
event preserve non-emptiness of all stored names (together with the
wizard-mode invariant that the pending name is non-blank while in
language-input mode); `load_todos`, however, does not guarantee it — a
blank line in the backing file yields a task with an empty name. -/
theorem C9_nonempty_names (a : App) (now : Nat) (k : KeyEvent)
    (h : NameInv a) :
    NameInv (start_pomodoro now a) ∧ NameInv (update_pomodoro now a) ∧
    NameInv (handle_key now a k).app ∧
    (a.input_mode = InputMode.Language → strTrim a.language_input ≠ "" →
      (handle_key now a .enter).app.todos =
        a.todos ++ [{ name := strTrim a.input
                      language := strTrim a.language_input
                      pomodoro_state := .Idle
                      pomodoro_start := none
                      completed_pomodoros := 0 }] ∧
      strTrim a.input ≠ "") := by
  refine ⟨NameInv_start now h, NameInv_update now h, NameInv_handle_key now k h,
    fun hm hl => ⟨?_, h.2 hm⟩⟩
  simp [handle_key, hm, hl]

def c9App : App :=
  { todos := [⟨"T", "R", .Idle, none, 0⟩], input := "  nm ", language_input := "lg"
    selected_index := 0, input_mode := .Language, cursor_position := 2
    status_message := none }

/-- Witness for the amended C9 at a concrete wizard confirmation. -/
theorem C9_nonempty_names_witness :
    NameInv c9App ∧ NameInv (handle_key 0 c9App .enter).app ∧
    (handle_key 0 c9App .enter).app.todos =
      [⟨"T", "R", .Idle, none, 0⟩, ⟨"nm", "lg", .Idle, none, 0⟩] := by
  have h := C9_nonempty_names c9App 0 .enter (by decide)
  refine ⟨by decide, h.2.2.1, ?_⟩
  exact ((h.2.2.2 rfl (by decide)).1).trans (by decide)

end PomodoroApp

namespace PomodoroApp

/-- C7: `load_todos` maps each line of the file to one task —
`"Write spec | Rust | 3"` gives completed count 3, `"Review PR | Go"`
gives count 0 and language `"Go"`; a missing language defaults to
`"Unknown"`, a missing or unparseable count defaults to 0, and an absent
file yields the empty store. -/
theorem C7_load_parsing :
    load_todos (some "Write spec | Rust | 3\nReview PR | Go") =
      [⟨"Write spec", "Rust", .Idle, none, 3⟩,
       ⟨"Review PR", "Go", .Idle, none, 0⟩] ∧
    load_todos none = [] ∧
    (∀ content : String, load_todos (some content) =
      (rustLines content.data).map parse_task_line) ∧
    (∀ l : List Char, (splitPipe l).length = 1 →
      (parse_task_line l).language = "Unknown" ∧
      (parse_task_line l).completed_pomodoros = 0) ∧
    (∀ l d : List Char, (splitPipe l)[2]? = some d → parseU32 d = none →
      (parse_task_line l).completed_pomodoros = 0) := by
  refine ⟨by decide, rfl, fun _ => rfl, fun l h1 => ?_, fun l d h2 hp => ?_⟩
  · have h1' : (splitPipe l)[1]? = none := List.getElem?_eq_none (by omega)
    have h2' : (splitPipe l)[2]? = none := List.getElem?_eq_none (by omega)
    unfold parse_task_line
    rw [h1', h2']
    exact ⟨rfl, rfl⟩
  · unfold parse_task_line
    rw [h2, Option.some_bind, hp]
    rfl

/-- Witness for C7's general defaulting clauses at concrete lines. -/
theorem C7_load_parsing_witness :
    (parse_task_line "solo".data).language = "Unknown" ∧
    (parse_task_line "solo".data).completed_pomodoros = 0 ∧
    (parse_task_line "a | b | xx".data).completed_pomodoros = 0 := by
  have h1 := (C7_load_parsing).2.2.2.1 "solo".data (by decide)
  have h2 := (C7_load_parsing).2.2.2.2 "a | b | xx".data "xx".data
    (by decide) (by decide)
  exact ⟨h1.1, h1.2, h2⟩

/-- C4 counterexample: for a store whose task name contains the field
delimiter `" | "`, save-then-load does not reproduce the name (or the
language): the claim fails as stated for this store. -/
theorem C4_counterexample :
    (load_todos (some (save_todos [⟨"a | b", "Rust", .Idle, none, 0⟩]))).map
        Task.name ≠ [⟨"a | b", "Rust", .Idle, none, 0⟩].map Task.name ∧
    load_todos (some (save_todos [⟨"a | b", "Rust", .Idle, none, 0⟩])) =
      [⟨"a", "b", .Idle, none, 0⟩] := by decide

/-- C4 (amended): for every store whose task names and languages contain
neither the pipe character nor a newline (so that the `" | "` line format
is unambiguous) and whose counts fit in a `u32`, save-then-load reproduces
name, language and completed count of every task in order, resetting every
state to `Idle` and every timer to `none`; independently, every loaded
task is `Idle` with no timer. -/
theorem C4_save_load_round_trip (todos : List Task)
    (h : ∀ t ∈ todos, ('|' ∉ t.name.data ∧ '\n' ∉ t.name.data)
      ∧ ('|' ∉ t.language.data ∧ '\n' ∉ t.language.data)
      ∧ t.completed_pomodoros < 2 ^ 32) :
    load_todos (some (save_todos todos)) = todos.map reset_task ∧
    (∀ content, ∀ t ∈ load_todos content,
      t.pomodoro_state = PomodoroState.Idle ∧ t.pomodoro_start = none) := by
  refine ⟨load_save_roundtrip todos h, fun content t ht => ?_⟩
  rcases content with _ | s
  · simp [load_todos] at ht
  · rcases List.mem_map.mp ht with ⟨l, _, rfl⟩
    exact ⟨rfl, rfl⟩

/-- Witness for C4 on a concrete store holding a running task. -/
theorem C4_save_load_round_trip_witness :
    load_todos (some (save_todos
        [⟨"Write spec", "Rust", .Work, some 7, 3⟩,
         ⟨"Review PR", "Go", .Break, some 2, 0⟩])) =
      [⟨"Write spec", "Rust", .Idle, none, 3⟩,
       ⟨"Review PR", "Go", .Idle, none, 0⟩] := by
  have h := (C4_save_load_round_trip
    [⟨"Write spec", "Rust", .Work, some 7, 3⟩,
     ⟨"Review PR", "Go", .Break, some 2, 0⟩] (by decide)).1
  exact h.trans (by decide)

end PomodoroApp

namespace PomodoroApp

theorem pomodoro_overview_empty (now : Nat) {a : App} (h : a.todos = []) :
    pomodoro_overview now a = ("No tasks available", 0, .DarkGray) := by
  unfold pomodoro_overview
  rw [h]
  rfl

theorem pomodoro_overview_not_started (now : Nat) {a : App} {task : Task}
    (hsel : a.todos[a.selected_index]? = some task)
    (hs : task.pomodoro_start = none) :
    pomodoro_overview now a =
      ("Press 'p' to start the pomodoro for this task.", 0, .Gray) := by
  unfold pomodoro_overview
  rw [isEmpty_false_of_some hsel, hsel]
  simp [hs]

theorem pomodoro_overview_paused (now : Nat) {a : App} {task : Task} {s : Nat}
    (hsel : a.todos[a.selected_index]? = some task)
    (hs : task.pomodoro_start = some s)
    (hst : task.pomodoro_state = PomodoroState.Idle) :
    pomodoro_overview now a =
      ("Pomodoro paused. Press 'p' to resume.", 0, .Gray) := by
  unfold pomodoro_overview
  rw [isEmpty_false_of_some hsel, hsel]
  simp [hs, hst]

theorem pomodoro_overview_work (now : Nat) {a : App} {task : Task} {s : Nat}
    (hsel : a.todos[a.selected_index]? = some task)
    (hs : task.pomodoro_start = some s)
    (hst : task.pomodoro_state = PomodoroState.Work) :
    pomodoro_overview now a =
      (phase_line "Focus" (WORK_DURATION - (now - s)),
        min (((now - s : Nat) : ℚ) / (WORK_DURATION : ℚ)) 1, .LightGreen) := by
  unfold pomodoro_overview
  rw [isEmpty_false_of_some hsel, hsel]
  simp [hs, hst]

theorem pomodoro_overview_break (now : Nat) {a : App} {task : Task} {s : Nat}
    (hsel : a.todos[a.selected_index]? = some task)
    (hs : task.pomodoro_start = some s)
    (hst : task.pomodoro_state = PomodoroState.Break) :
    pomodoro_overview now a =
      (phase_line "Break" (BREAK_DURATION - (now - s)),
        min (((now - s : Nat) : ℚ) / (BREAK_DURATION : ℚ)) 1, .LightBlue) := by
  unfold pomodoro_overview
  rw [isEmpty_false_of_some hsel, hsel]
  simp [hs, hst]

theorem ratio_bounds (e d : Nat) :
    0 ≤ min ((e : ℚ) / (d : ℚ)) 1 ∧ min ((e : ℚ) / (d : ℚ)) 1 ≤ 1 :=
  ⟨le_min (div_nonneg (Nat.cast_nonneg e) (Nat.cast_nonneg d)) zero_le_one,
    min_le_right _ 1⟩

theorem pomodoro_overview_ratio_cases (now : Nat) (a : App) :
    (pomodoro_overview now a).2.1 = 0 ∨
    ∃ e d : Nat, (pomodoro_overview now a).2.1 = min ((e : ℚ) / (d : ℚ)) 1 := by
  rcases hemp : a.todos with _ | _
  · left; rw [pomodoro_overview_empty now hemp]
  · rcases hsel : a.todos[a.selected_index]? with _ | task
    · left
      unfold pomodoro_overview
      have hf : a.todos.isEmpty = false := by rw [hemp]; rfl
      rw [hf, hsel]
      rfl
    · rcases hs : task.pomodoro_start with _ | s
      · left; rw [pomodoro_overview_not_started now hsel hs]
      · rcases hst : task.pomodoro_state with _ | _ | _
        · left; rw [pomodoro_overview_paused now hsel hs hst]
        · right
          exact ⟨now - s, WORK_DURATION, by rw [pomodoro_overview_work now hsel hs hst]⟩
        · right
          exact ⟨now - s, BREAK_DURATION, by rw [pomodoro_overview_break now hsel hs hst]⟩

end PomodoroApp

namespace PomodoroApp

/-- C5: `pomodoro_overview` is a pure projection (it takes `&self` in the
source; here a function of the state).  Its progress ratio always lies in
`[0, 1]`; for a running phase it equals `min(elapsed / phase_duration, 1)`
and the displayed remaining time is the saturating difference
`duration - elapsed` (zero once `elapsed ≥ duration`); an empty store and
a not-started (Idle, timer `none`) selected task give ratio 0 with their
own distinct hint texts; and projecting immediately after
`start_pomodoro` gives the `Work` phase with ratio 0. -/
theorem C5_overview (a : App) (now s : Nat) :
    (0 ≤ (pomodoro_overview now a).2.1 ∧ (pomodoro_overview now a).2.1 ≤ 1) ∧
    (a.todos = [] →
      pomodoro_overview now a = ("No tasks available", 0, Color.DarkGray)) ∧
    (∀ task, a.todos[a.selected_index]? = some task →
      task.pomodoro_start = none →
      pomodoro_overview now a =
        ("Press 'p' to start the pomodoro for this task.", 0, Color.Gray)) ∧
    (∀ task, a.todos[a.selected_index]? = some task →
      task.pomodoro_start = some s →
      (task.pomodoro_state = PomodoroState.Work →
        pomodoro_overview now a =
          (phase_line "Focus" (WORK_DURATION - (now - s)),
            min (((now - s : Nat) : ℚ) / (WORK_DURATION : ℚ)) 1,
            Color.LightGreen)) ∧
      (task.pomodoro_state = PomodoroState.Break →
        pomodoro_overview now a =
          (phase_line "Break" (BREAK_DURATION - (now - s)),
            min (((now - s : Nat) : ℚ) / (BREAK_DURATION : ℚ)) 1,
            Color.LightBlue)) ∧
      (task.pomodoro_state = PomodoroState.Work → WORK_DURATION ≤ now - s →
        (pomodoro_overview now a).1 = phase_line "Focus" 0)) ∧
    (∀ task, a.todos[a.selected_index]? = some task →
      pomodoro_overview now (start_pomodoro now a) =
        (phase_line "Focus" WORK_DURATION, 0, Color.LightGreen)) := by
  refine ⟨?_, fun h => pomodoro_overview_empty now h,
    fun task hsel hs => pomodoro_overview_not_started now hsel hs,
    fun task hsel hs =>
      ⟨fun hst => pomodoro_overview_work now hsel hs hst,
       fun hst => pomodoro_overview_break now hsel hs hst,
       fun hst hge => ?_⟩,
    fun task hsel => ?_⟩
  · rcases pomodoro_overview_ratio_cases now a with h | ⟨e, d, h⟩
    · rw [h]; exact ⟨le_refl 0, zero_le_one⟩
    · rw [h]; exact ratio_bounds e d
  · rw [pomodoro_overview_work now hsel hs hst, Nat.sub_eq_zero_of_le hge]
  · have heq := start_pomodoro_some now hsel
    have hlen : a.selected_index < a.todos.length :=
      (List.getElem?_eq_some.mp hsel).1
    have hsel' : (start_pomodoro now a).todos[
        (start_pomodoro now a).selected_index]? =
        some { task with pomodoro_state := .Work, pomodoro_start := some now } := by
      simp only [heq]
      exact List.getElem?_set_self hlen
    rw [pomodoro_overview_work now hsel' rfl rfl, Nat.sub_self]
    norm_num

def c5App : App :=
  { todos := [⟨"T", "R", .Work, some 100, 0⟩], input := "", language_input := ""
    selected_index := 0, input_mode := .NoTyping, cursor_position := 0
    status_message := none }

/-- Witness for C5 at a concrete running task (started at 100, viewed at
850 = halfway through the work phase, and at 1700 = past it). -/
theorem C5_overview_witness :
    pomodoro_overview 850 c5App =
      (phase_line "Focus" (WORK_DURATION - 750),
        min (((750 : Nat) : ℚ) / (WORK_DURATION : ℚ)) 1, Color.LightGreen) ∧
    (pomodoro_overview 1700 c5App).1 = phase_line "Focus" 0 ∧
    pomodoro_overview 0 (start_pomodoro 0 c5App) =
      (phase_line "Focus" WORK_DURATION, 0, Color.LightGreen) := by
  have h1 := ((C5_overview c5App 850 100).2.2.2.1
    ⟨"T", "R", .Work, some 100, 0⟩ (by decide) rfl).1 rfl
  have h2 := ((C5_overview c5App 1700 100).2.2.2.1
    ⟨"T", "R", .Work, some 100, 0⟩ (by decide) rfl).2.2 rfl (by decide)
  have h3 := (C5_overview c5App 0 100).2.2.2.2
    ⟨"T", "R", .Work, some 100, 0⟩ (by decide)
  exact ⟨h1, h2, h3⟩

end PomodoroApp
